import Mathlib

/-!
Verification of the LoRa chunked message-transport core of the repository:
the fragmenter in transmitter_lora.py (create_packets and the send loop) and
the reassembler in receiver_lora.py (parse_packet, packet_buffer handling,
reassemble_message, and the eviction sweep of the main receive loop).

Bytes are modelled as natural numbers; Python byte strings become List Nat.
The JSON decode step (json.loads on the receiver, an external library call)
is modelled as an oracle predicate on the trimmed byte buffer, since the
receiver's control flow depends only on whether decoding succeeds; the
emitted document is represented by the trimmed bytes it was decoded from,
tagged with the message id it belonged to.
-/

set_option maxRecDepth 8000

namespace Raspi

/-- Little-endian encoding of x into w bytes, as in Python int.to_bytes(w, 'little')
(the value is reduced mod 256^w; the Python call assumes it fits). -/
def toBytesLE : Nat → Nat → List Nat
  | 0, _ => []
  | w + 1, x => x % 256 :: toBytesLE w (x / 256)

/-- Little-endian decoding, as in Python int.from_bytes(bs, 'little') for byte
values below 256. -/
def fromBytesLE (bs : List Nat) : Nat :=
  bs.foldr (fun b acc => b + 256 * acc) 0

/-- Python bytes.ljust: right-pad with zero bytes up to width w
(transmitter_lora.py line 54 pads each chunk to the fixed chunk size). -/
def ljust (l : List Nat) (w : Nat) : List Nat :=
  l ++ List.replicate (w - l.length) 0

/-- The chunk extracted for a given index in create_packets (lines 49-54):
json_bytes[index*cs : min(index*cs+cs, len)] padded to cs bytes. -/
def chunkAt (payload : List Nat) (cs k : Nat) : List Nat :=
  ljust ((payload.drop (k * cs)).take cs) cs

/-- Packet built by create_packets lines 57-62: recipient byte, 4-byte LE
message id, 2-byte LE index, 2-byte LE total, then the chunk. -/
def mkPacket (recipient_id packet_content_id index total_chunks : Nat)
    (chunk : List Nat) : List Nat :=
  recipient_id % 256 ::
    (toBytesLE 4 packet_content_id ++
      (toBytesLE 2 index ++ (toBytesLE 2 total_chunks ++ chunk)))

/-- The error text of transmitter_lora.py line 44. -/
def oversizeMsg (total_chunks : Nat) : String :=
  "Data too large: " ++ toString total_chunks ++ " chunks needed, max is 65535"

/-- create_packets of transmitter_lora.py (lines 25-66), generalized over the
chunk size which the source fixes to 243 (line 40); the serialized payload
json_bytes is the input. Raising ValueError becomes returning .error. -/
def create_packets_gen (json_bytes : List Nat)
    (recipient_id packet_content_id cs : Nat) :
    Except String (List (List Nat)) :=
  let total_chunks := (json_bytes.length + cs - 1) / cs
  if total_chunks > 65535 then
    .error (oversizeMsg total_chunks)
  else
    .ok ((List.range total_chunks).map fun index =>
      mkPacket recipient_id packet_content_id index total_chunks
        (chunkAt json_bytes cs index))

/-- create_packets exactly as in the source, with chunk_size = 243. -/
def create_packets (json_bytes : List Nat) (recipient_id packet_content_id : Nat) :
    Except String (List (List Nat)) :=
  create_packets_gen json_bytes recipient_id packet_content_id 243

/-- The send loop of transmitter_lora.py lines 87-90: one send attempt per
packet, recording (index, packet, transceiver result). The loop body never
inspects the result of rfm95.send, so the recursion continues unconditionally. -/
def send_loop (sendRes : Nat → Bool) : List (List Nat) → Nat → List (Nat × List Nat × Bool)
  | [], _ => []
  | pkt :: rest, i => (i, pkt, sendRes i) :: send_loop sendRes rest (i + 1)

/-- The transmitter program: create packets, then run the send loop;
if create_packets raises, no send is ever attempted (lines 79-90). -/
def transmit (json_bytes : List Nat) (recipient_id packet_content_id cs : Nat)
    (sendRes : Nat → Bool) : List (Nat × List Nat × Bool) :=
  match create_packets_gen json_bytes recipient_id packet_content_id cs with
  | .error _ => []
  | .ok pkts => send_loop sendRes pkts 0

/-- Parsed packet fields, as produced by parse_packet of receiver_lora.py. -/
structure Parsed where
  recipient_id : Nat
  packet_content_id : Nat
  index : Nat
  total_chunks : Nat
  data : List Nat
deriving DecidableEq, Repr

/-- parse_packet of receiver_lora.py lines 30-58: packets shorter than the
9-byte header are rejected; otherwise byte 0 is the recipient, bytes 1-4 the
LE message id, bytes 5-6 the LE index, bytes 7-8 the LE total, rest is data. -/
def parse_packet (packet : List Nat) : Option Parsed :=
  match packet with
  | b0 :: b1 :: b2 :: b3 :: b4 :: b5 :: b6 :: b7 :: b8 :: data =>
    some ⟨b0, fromBytesLE [b1, b2, b3, b4], fromBytesLE [b5, b6],
      fromBytesLE [b7, b8], data⟩
  | _ => none

/-- One reassembly-table entry of packet_buffer (receiver_lora.py lines 132-137):
the expected total learned from the first packet, the index-to-chunk dict, and
the creation timestamp. -/
structure Entry where
  total_chunks : Nat
  chunks : List (Nat × List Nat)
  timestamp : Int
deriving DecidableEq, Repr

/-- Python dict lookup d.get(k) on an insertion-ordered association list. -/
def dictGet? {α : Type} (m : List (Nat × α)) (k : Nat) : Option α :=
  (m.find? (fun kv => kv.1 == k)).map (fun kv => kv.2)

/-- Python `k in d`. -/
def dictContains {α : Type} (m : List (Nat × α)) (k : Nat) : Bool :=
  m.any (fun kv => kv.1 == k)

/-- Python d[k] = v: overwrite in place if the key exists, else append
(insertion order preserved, as for Python dicts). -/
def dictInsert {α : Type} (m : List (Nat × α)) (k : Nat) (v : α) : List (Nat × α) :=
  if dictContains m k then m.map (fun kv => if kv.1 == k then (k, v) else kv)
  else m ++ [(k, v)]

/-- Python del d[k]. -/
def dictErase {α : Type} (m : List (Nat × α)) (k : Nat) : List (Nat × α) :=
  m.filter (fun kv => !(kv.1 == k))

/-- The receiver's packet_buffer (receiver_lora.py line 28). -/
abbrev Buffer := List (Nat × Entry)

/-- The chunk-concatenation loop of reassemble_message lines 79-83: walk the
indices 0..total-1 in order, failing if one is absent from the dict. -/
def gather (chunks : List (Nat × List Nat)) : Nat → Option (List Nat)
  | 0 => some []
  | c + 1 =>
    match gather chunks c, dictGet? chunks c with
    | some acc, some d => some (acc ++ d)
    | _, _ => none

/-- Python bytes.rstrip(b'\x00') of line 86: drop trailing zero bytes. -/
def rstripZeros (bs : List Nat) : List Nat :=
  (bs.reverse.dropWhile (fun b => b == 0)).reverse

/-- The entry-level part of reassemble_message (lines 70-86): the cardinality
check, the in-order concatenation with per-index membership check, and the
padding trim. -/
def reassemble_bytes (info : Entry) : Option (List Nat) :=
  if info.chunks.length ≠ info.total_chunks then none
  else
    match gather info.chunks info.total_chunks with
    | none => none
    | some full => some (rstripZeros full)

/-- reassemble_message of receiver_lora.py lines 60-95. The final json.loads
is the external decode oracle dOk; on success the source returns the decoded
document, represented here by the trimmed bytes it was decoded from. -/
def reassemble_message (dOk : List Nat → Bool) (buf : Buffer) (pcid : Nat) :
    Option (List Nat) :=
  match dictGet? buf pcid with
  | none => none
  | some info =>
    match reassemble_bytes info with
    | none => none
    | some trimmed => if dOk trimmed then some trimmed else none

/-- The buffer mutation of receiver_lora.py lines 131-140: create the entry on
first contact (recording the parsed total and the current time), then store the
chunk at its index. -/
def entryAfterStore (buf : Buffer) (p : Parsed) (t : Int) : Entry :=
  let e0 := (dictGet? buf p.packet_content_id).getD ⟨p.total_chunks, [], t⟩
  ⟨e0.total_chunks, dictInsert e0.chunks p.index p.data, e0.timestamp⟩

/-- Handling of one received packet in the main loop (receiver_lora.py lines
110-157): parse, address-filter, bucket the chunk, and when the stored-chunk
count equals the parsed total, attempt reassembly; the entry is deleted only
when the decode succeeded, in which case the document is emitted. -/
def processPacket (myId : Nat) (dOk : List Nat → Bool) (buf : Buffer)
    (pkt : List Nat) (t : Int) : Buffer × Option (Nat × List Nat) :=
  match parse_packet pkt with
  | none => (buf, none)
  | some p =>
    if p.recipient_id ≠ myId ∧ p.recipient_id ≠ 255 then (buf, none)
    else
      let e1 := entryAfterStore buf p t
      let buf1 := dictInsert buf p.packet_content_id e1
      if e1.chunks.length = p.total_chunks then
        match reassemble_message dOk buf1 p.packet_content_id with
        | some v => (dictErase buf1 p.packet_content_id, some (p.packet_content_id, v))
        | none => (buf1, none)
      else (buf1, none)

/-- Deliver a list of packets back-to-back (all within one eviction window),
collecting the emitted (message id, document bytes) pairs in order. -/
def processAll (myId : Nat) (dOk : List Nat → Bool) :
    Buffer → List (List Nat) → Int → Buffer × List (Nat × List Nat)
  | buf, [], _ => (buf, [])
  | buf, pkt :: rest, t =>
    let r1 := processPacket myId dOk buf pkt t
    let r2 := processAll myId dOk r1.1 rest t
    (r2.1, r1.2.toList ++ r2.2)

/-- The cleanup pass of receiver_lora.py lines 164-173: collect the ids whose
age exceeds 60 seconds and delete them; equivalently keep exactly the entries
that are not yet expired. -/
def sweep (t : Int) (buf : Buffer) : Buffer :=
  buf.filter (fun kv => !(decide (t - kv.2.timestamp > 60)))

/-- One iteration of the main receive loop (receiver_lora.py lines 105-173):
an optional received packet (None on radio timeout) with the iteration's
monotonic time; the eviction sweep runs at the end of every iteration,
packet or not. -/
def loopIter (myId : Nat) (dOk : List Nat → Bool) (buf : Buffer)
    (inp : Option (List Nat) × Int) : Buffer × Option (Nat × List Nat) :=
  match inp.1 with
  | some pkt =>
    let r := processPacket myId dOk buf pkt inp.2
    (sweep inp.2 r.1, r.2)
  | none => (sweep inp.2 buf, none)

/-- The receive loop over a finite trace of iteration inputs. -/
def runLoop (myId : Nat) (dOk : List Nat → Bool) :
    Buffer → List (Option (List Nat) × Int) → Buffer × List (Nat × List Nat)
  | buf, [] => (buf, [])
  | buf, inp :: rest =>
    let r1 := loopIter myId dOk buf inp
    let r2 := runLoop myId dOk r1.1 rest
    (r2.1, r1.2.toList ++ r2.2)

/-! ### Byte-codec lemmas -/

lemma toBytesLE_length (w x : Nat) : (toBytesLE w x).length = w := by
  induction w generalizing x with
  | zero => rfl
  | succ w ih => simp [toBytesLE, ih]

lemma fromBytesLE_toBytesLE_two (x : Nat) :
    fromBytesLE (toBytesLE 2 x) = x % 65536 := by
  simp only [toBytesLE, fromBytesLE, List.foldr]
  omega

lemma fromBytesLE_toBytesLE_four (x : Nat) :
    fromBytesLE (toBytesLE 4 x) = x % 4294967296 := by
  simp only [toBytesLE, fromBytesLE, List.foldr]
  omega

lemma mkPacket_length (r m i c : Nat) (chunk : List Nat) :
    (mkPacket r m i c chunk).length = 9 + chunk.length := by
  simp [mkPacket, toBytesLE]
  omega

/-- Parsing a packet built by the fragmenter recovers its fields (reduced to
the field widths). -/
lemma parse_mkPacket (r m i c : Nat) (chunk : List Nat) :
    parse_packet (mkPacket r m i c chunk) =
      some ⟨r % 256, m % 4294967296, i % 65536, c % 65536, chunk⟩ := by
  have h4 := fromBytesLE_toBytesLE_four m
  have h2i := fromBytesLE_toBytesLE_two i
  have h2c := fromBytesLE_toBytesLE_two c
  simp only [toBytesLE] at h4 h2i h2c
  simp only [mkPacket, toBytesLE, List.cons_append, List.nil_append, parse_packet,
    h4, h2i, h2c]

lemma parse_mkPacket_small (r m i c : Nat) (chunk : List Nat)
    (hm : m < 4294967296) (hi : i < 65536) (hc : c < 65536) :
    parse_packet (mkPacket r m i c chunk) = some ⟨r % 256, m, i, c, chunk⟩ := by
  rw [parse_mkPacket, Nat.mod_eq_of_lt hm, Nat.mod_eq_of_lt hi, Nat.mod_eq_of_lt hc]

/-! ### Dictionary lemmas -/

lemma dictContains_iff {α : Type} (m : List (Nat × α)) (k : Nat) :
    dictContains m k = true ↔ k ∈ m.map Prod.fst := by
  simp [dictContains, List.any_eq_true, List.mem_map]

lemma dictInsert_of_not_mem {α : Type} (m : List (Nat × α)) (k : Nat) (v : α)
    (h : k ∉ m.map Prod.fst) : dictInsert m k v = m ++ [(k, v)] := by
  rw [dictInsert, if_neg]
  simp only [dictContains_iff] at *
  exact fun hc => h hc

lemma mem_dictInsert {α : Type} {m : List (Nat × α)} {k : Nat} {v : α}
    {kv : Nat × α} (h : kv ∈ dictInsert m k v) : kv ∈ m ∨ kv = (k, v) := by
  rw [dictInsert] at h
  split at h
  · rcases List.mem_map.mp h with ⟨kv0, hkv0, heq⟩
    by_cases hk : (kv0.1 == k) = true
    · rw [if_pos hk] at heq; exact Or.inr heq.symm
    · rw [if_neg hk] at heq; exact Or.inl (heq ▸ hkv0)
  · rcases List.mem_append.mp h with h1 | h1
    · exact Or.inl h1
    · exact Or.inr (by simpa using h1)

lemma dictGet?_eq_some_of_mem {α : Type} {m : List (Nat × α)} {k : Nat} {v : α}
    (hnd : (m.map Prod.fst).Nodup) (hmem : (k, v) ∈ m) :
    dictGet? m k = some v := by
  induction m with
  | nil => cases hmem
  | cons kv rest ih =>
    simp only [List.map_cons, List.nodup_cons] at hnd
    rcases List.mem_cons.mp hmem with heq | hmem2
    · subst heq
      simp [dictGet?, List.find?]
    · have hk : kv.1 ≠ k := by
        intro h
        exact hnd.1 (h ▸ (List.mem_map.mpr ⟨(k, v), hmem2, rfl⟩))
      have := ih hnd.2 hmem2
      simp only [dictGet?, List.find?] at this ⊢
      rw [show (kv.1 == k) = false from beq_eq_false_iff_ne.mpr hk]
      exact this

lemma dictGet?_mem {α : Type} {m : List (Nat × α)} {k : Nat} {v : α}
    (h : dictGet? m k = some v) : (k, v) ∈ m := by
  unfold dictGet? at h
  rcases Option.map_eq_some'.mp h with ⟨kv, hfind, hv⟩
  have hmem := List.mem_of_find?_eq_some hfind
  have hpred := List.find?_some hfind
  have hk : kv.1 = k := by simpa using hpred
  have hkv : kv = (k, v) := by
    rw [Prod.ext_iff]; exact ⟨hk, hv⟩
  exact hkv ▸ hmem

lemma dictGet?_isSome_of_mem_keys {α : Type} {m : List (Nat × α)} {k : Nat}
    (h : k ∈ m.map Prod.fst) : (dictGet? m k).isSome := by
  induction m with
  | nil => simp at h
  | cons kv rest ih =>
    simp only [List.map_cons, List.mem_cons] at h
    by_cases hk : kv.1 == k
    · simp [dictGet?, List.find?, hk]
    · simp only [dictGet?, List.find?, hk]
      rcases h with h | h
      · exact absurd (by simpa using h.symm) (by simpa using hk)
      · exact ih h

lemma mem_keys_of_dictGet?_isSome {α : Type} {m : List (Nat × α)} {k : Nat}
    (h : (dictGet? m k).isSome) : k ∈ m.map Prod.fst := by
  rcases Option.isSome_iff_exists.mp h with ⟨v, hv⟩
  exact List.mem_map.mpr ⟨(k, v), dictGet?_mem hv, rfl⟩

lemma dictInsert_keys_nodup {α : Type} {m : List (Nat × α)} (k : Nat) (v : α)
    (hnd : (m.map Prod.fst).Nodup) : ((dictInsert m k v).map Prod.fst).Nodup := by
  by_cases hc : k ∈ m.map Prod.fst
  · rw [dictInsert, if_pos ((dictContains_iff m k).mpr hc)]
    have : (m.map (fun kv => if kv.1 == k then (k, v) else kv)).map Prod.fst
        = m.map Prod.fst := by
      rw [List.map_map]
      apply List.map_congr_left
      intro kv _
      by_cases h : kv.1 = k
      · simp [h]
      · simp [h]
    rw [this]; exact hnd
  · rw [dictInsert_of_not_mem _ _ _ hc, List.map_append]
    simp only [List.map_cons, List.map_nil]
    rw [List.nodup_append]
    refine ⟨hnd, List.nodup_singleton k, ?_⟩
    intro a ha hak
    rw [List.mem_singleton] at hak
    exact hc (hak ▸ ha)

lemma dictGet?_insert_self {α : Type} (m : List (Nat × α)) (k : Nat) (v : α)
    (hnd : (m.map Prod.fst).Nodup) : dictGet? (dictInsert m k v) k = some v := by
  have hkeys : ((dictInsert m k v).map Prod.fst).Nodup := dictInsert_keys_nodup k v hnd
  by_cases hc : k ∈ m.map Prod.fst
  · have hmem : (k, v) ∈ dictInsert m k v := by
      rw [dictInsert, if_pos ((dictContains_iff m k).mpr hc)]
      rcases List.mem_map.mp hc with ⟨kv, hkv, hk⟩
      refine List.mem_map.mpr ⟨kv, hkv, ?_⟩
      rw [if_pos (by simpa using hk)]
    exact dictGet?_eq_some_of_mem hkeys hmem
  · have hmem : (k, v) ∈ dictInsert m k v := by
      rw [dictInsert_of_not_mem _ _ _ hc]
      exact List.mem_append.mpr (Or.inr (by simp))
    exact dictGet?_eq_some_of_mem hkeys hmem

/-! ### Ceiling-division lemmas -/

lemma le_ceil_mul (L cs : Nat) (hcs : 1 ≤ cs) : L ≤ ((L + cs - 1) / cs) * cs := by
  have h := Nat.div_add_mod (L + cs - 1) cs
  have hr : (L + cs - 1) % cs < cs := Nat.mod_lt _ hcs
  rw [Nat.mul_comm]
  omega

lemma one_le_ceil (L cs : Nat) (hcs : 1 ≤ cs) (hL : 1 ≤ L) :
    1 ≤ (L + cs - 1) / cs := by
  rw [Nat.le_div_iff_mul_le hcs]
  omega

/-! ### Padding and trimming lemmas -/

lemma ljust_length (l : List Nat) (w : Nat) :
    (ljust l w).length = max w l.length := by
  simp only [ljust, List.length_append, List.length_replicate]
  omega

lemma chunkAt_length (P : List Nat) (cs k : Nat) :
    (chunkAt P cs k).length = cs := by
  have h : ((P.drop (k * cs)).take cs).length ≤ cs := by
    simp [List.length_take]
  rw [chunkAt, ljust_length]
  omega

lemma dropWhile_replicate_zero_append (k : Nat) (l : List Nat) :
    List.dropWhile (fun b => b == 0) (List.replicate k 0 ++ l)
      = List.dropWhile (fun b => b == 0) l := by
  induction k with
  | zero => rfl
  | succ k ih => simpa [List.replicate_succ, List.dropWhile] using ih

/-- Trimming trailing zeros of a zero-padded buffer recovers the buffer, as
long as it does not itself end in a zero byte. -/
lemma rstripZeros_padded (P : List Nat) (k : Nat) (hlast : P.getLast? ≠ some 0) :
    rstripZeros (P ++ List.replicate k 0) = P := by
  unfold rstripZeros
  rw [List.reverse_append, List.reverse_replicate, dropWhile_replicate_zero_append]
  cases hrev : P.reverse with
  | nil =>
    have : P = [] := by simpa using congrArg List.reverse hrev
    simp [this]
  | cons a tl =>
    have hhead : P.reverse.head? = some a := by rw [hrev]; rfl
    rw [List.head?_reverse] at hhead
    have ha : a ≠ 0 := fun h => hlast (h ▸ hhead)
    rw [List.dropWhile_cons_of_neg (by simpa using ha)]
    rw [← hrev, List.reverse_reverse]

/-- Concatenating the chunks of a payload in index order yields the payload
followed by the zero padding of the final chunk. -/
lemma join_chunks (cs : Nat) (hcs : 1 ≤ cs) :
    ∀ (n : Nat) (P : List Nat), P.length ≤ n * cs →
      ((List.range n).map (chunkAt P cs)).flatten
        = P ++ List.replicate (n * cs - P.length) 0 := by
  intro n
  induction n with
  | zero =>
    intro P hP
    have : P = [] := List.eq_nil_of_length_eq_zero (Nat.le_zero.mp (by simpa using hP))
    simp [this]
  | succ n ih =>
    intro P hP
    rw [List.range_succ_eq_map]
    simp only [List.map_cons, List.map_map, List.flatten_cons]
    have hsucc : ∀ k, chunkAt P cs (k + 1) = chunkAt (P.drop cs) cs k := by
      intro k
      unfold chunkAt
      rw [List.drop_drop]
      congr 2
      ring
    have hmap : (List.range n).map (chunkAt P cs ∘ Nat.succ)
        = (List.range n).map (chunkAt (P.drop cs) cs) := by
      apply List.map_congr_left
      intro k _
      exact hsucc k
    have hmul : (n + 1) * cs = n * cs + cs := by ring
    have hdroplen : (P.drop cs).length = P.length - cs := by simp
    have hdrople : (P.drop cs).length ≤ n * cs := by
      rw [hdroplen]
      omega
    have hih := ih (P.drop cs) hdrople
    rw [hmap, hih]
    by_cases hle : cs ≤ P.length
    · have htake : (P.take cs).length = cs := by simp [List.length_take]; omega
      have hchunk0 : chunkAt P cs 0 = P.take cs := by
        unfold chunkAt ljust
        simp [htake]
      rw [hchunk0, hdroplen]
      rw [← List.append_assoc, List.take_append_drop]
      congr 1
      congr 1
      omega
    · push_neg at hle
      have htakeall : P.take cs = P := List.take_of_length_le (Nat.le_of_lt hle)
      have hdropall : P.drop cs = [] := List.drop_eq_nil_of_le (Nat.le_of_lt hle)
      have hchunk0 : chunkAt P cs 0 = P ++ List.replicate (cs - P.length) 0 := by
        unfold chunkAt ljust
        simp [htakeall]
      rw [hchunk0, hdropall]
      simp only [List.nil_append, List.append_assoc, List.length_nil, Nat.sub_zero]
      congr 1
      rw [← List.replicate_add]
      congr 1
      omega

/-! ### Gather lemmas -/

lemma gather_eq_join (m : List (Nat × List Nat)) (f : Nat → List Nat) :
    ∀ c, (∀ i, i < c → dictGet? m i = some (f i)) →
      gather m c = some (((List.range c).map f).flatten) := by
  intro c
  induction c with
  | zero => intro _; rfl
  | succ c ih =>
    intro h
    have hc := ih (fun i hi => h i (Nat.lt_succ_of_lt hi))
    simp only [gather, hc, h c (Nat.lt_succ_self c)]
    rw [List.range_succ]
    simp

lemma gather_isSome_of_all (m : List (Nat × List Nat)) :
    ∀ c, (∀ i, i < c → (dictGet? m i).isSome) → (gather m c).isSome := by
  intro c
  induction c with
  | zero => intro _; simp [gather]
  | succ c ih =>
    intro h
    have hc := ih (fun i hi => h i (Nat.lt_succ_of_lt hi))
    rcases Option.isSome_iff_exists.mp hc with ⟨acc, hacc⟩
    rcases Option.isSome_iff_exists.mp (h c (Nat.lt_succ_self c)) with ⟨d, hd⟩
    simp [gather, hacc, hd]

lemma gather_some_get (m : List (Nat × List Nat)) :
    ∀ c full, gather m c = some full → ∀ i, i < c → (dictGet? m i).isSome := by
  intro c
  induction c with
  | zero => intro full _ i hi; omega
  | succ c ih =>
    intro full hg i hi
    simp only [gather] at hg
    rcases hacc : gather m c with _ | acc
    · rw [hacc] at hg; simp at hg
    · rcases hd : dictGet? m c with _ | d
      · rw [hacc, hd] at hg; simp at hg
      · rcases Nat.lt_succ_iff_lt_or_eq.mp hi with hlt | heq
        · exact ih acc hacc i hlt
        · subst heq; simp [hd]

/-! ### Pigeonhole: a nodup key list bounded by n with n elements covers range n -/

lemma keys_cover (keys : List Nat) (n : Nat) (hnd : keys.Nodup)
    (hlt : ∀ k ∈ keys, k < n) (hlen : keys.length = n) :
    ∀ i, i < n → i ∈ keys := by
  intro i hi
  have hsub : keys.toFinset ⊆ Finset.range n := by
    intro a ha
    rw [List.mem_toFinset] at ha
    exact Finset.mem_range.mpr (hlt a ha)
  have hcard : keys.toFinset.card = n := by
    rw [List.toFinset_card_of_nodup hnd, hlen]
  have heq : keys.toFinset = Finset.range n :=
    Finset.eq_of_subset_of_card_le hsub (by rw [hcard, Finset.card_range])
  have : i ∈ keys.toFinset := heq ▸ Finset.mem_range.mpr hi
  exact List.mem_toFinset.mp this

/-! ### Small dictionary computations -/

lemma dictGet?_singleton {α : Type} (k : Nat) (v : α) : dictGet? [(k, v)] k = some v := by
  simp [dictGet?, List.find?]

lemma dictInsert_nil {α : Type} (k : Nat) (v : α) : dictInsert [] k v = [(k, v)] := by
  simp [dictInsert, dictContains]

lemma dictInsert_singleton_same {α : Type} (k : Nat) (v w : α) :
    dictInsert [(k, v)] k w = [(k, w)] := by
  simp [dictInsert, dictContains]

lemma dictErase_singleton {α : Type} (k : Nat) (v : α) : dictErase [(k, v)] k = [] := by
  simp [dictErase]

/-! ### processPacket characterizations -/

lemma processPacket_not_parsed (myId : Nat) (dOk : List Nat → Bool) (buf : Buffer)
    (pkt : List Nat) (t : Int) (h : parse_packet pkt = none) :
    processPacket myId dOk buf pkt t = (buf, none) := by
  simp only [processPacket, h]

lemma processPacket_foreign (myId : Nat) (dOk : List Nat → Bool) (buf : Buffer)
    (pkt : List Nat) (t : Int) (p : Parsed) (hp : parse_packet pkt = some p)
    (h1 : p.recipient_id ≠ myId) (h2 : p.recipient_id ≠ 255) :
    processPacket myId dOk buf pkt t = (buf, none) := by
  simp only [processPacket, hp]
  rw [if_pos ⟨h1, h2⟩]

lemma processPacket_accepted (myId : Nat) (dOk : List Nat → Bool) (buf : Buffer)
    (pkt : List Nat) (t : Int) (p : Parsed) (hp : parse_packet pkt = some p)
    (hacc : p.recipient_id = myId ∨ p.recipient_id = 255) :
    processPacket myId dOk buf pkt t =
      (if (entryAfterStore buf p t).chunks.length = p.total_chunks then
        match reassemble_message dOk
            (dictInsert buf p.packet_content_id (entryAfterStore buf p t))
            p.packet_content_id with
        | some v =>
          (dictErase (dictInsert buf p.packet_content_id (entryAfterStore buf p t))
              p.packet_content_id,
            some (p.packet_content_id, v))
        | none =>
          (dictInsert buf p.packet_content_id (entryAfterStore buf p t), none)
      else (dictInsert buf p.packet_content_id (entryAfterStore buf p t), none)) := by
  simp only [processPacket, hp]
  rw [if_neg (by tauto)]

lemma reassemble_message_get (dOk : List Nat → Bool) (buf : Buffer) (pcid : Nat)
    (info : Entry) (h : dictGet? buf pcid = some info) :
    reassemble_message dOk buf pcid =
      match reassemble_bytes info with
      | none => none
      | some trimmed => if dOk trimmed then some trimmed else none := by
  unfold reassemble_message
  rw [h]

/-! ### The round-trip induction -/

/-- Invariant fold for the round-trip: if the still-undelivered pairs ps,
together with the already-stored pairs q, enumerate each chunk index below n
exactly once with the correct chunk bytes, then delivering the remaining
packets completes the message, emits exactly the original payload, and leaves
the table empty. -/
lemma processAll_perm_aux
    (cs rid mid n : Nat) (P : List Nat) (dOk : List Nat → Bool) (t : Int)
    (hmid : mid < 4294967296) (hn2 : n ≤ 65535)
    (hcs : 1 ≤ cs) (hPle : P.length ≤ n * cs)
    (hlast : P.getLast? ≠ some 0) (hdOk : dOk P = true) :
    ∀ (ps q : List (Nat × List Nat)),
      ((q ++ ps).map Prod.fst).Nodup →
      (∀ kc ∈ q ++ ps, kc.1 < n ∧ kc.2 = chunkAt P cs kc.1) →
      (q ++ ps).length = n →
      ps ≠ [] →
      processAll (rid % 256) dOk
        (if q.isEmpty then ([] : Buffer) else [(mid, ⟨n, q, t⟩)])
        (ps.map fun kc => mkPacket rid mid kc.1 n kc.2) t
      = ([], [(mid, P)]) := by
  intro ps
  induction ps with
  | nil => intro q _ _ _ hne; exact absurd rfl hne
  | cons kc rest ih =>
    intro q hnd hprop hlen _
    have hmemkc : kc ∈ q ++ kc :: rest := List.mem_append.mpr (Or.inr (List.mem_cons_self kc rest))
    have hk_lt_n : kc.1 < n := (hprop kc hmemkc).1
    have hc_eq : kc.2 = chunkAt P cs kc.1 := (hprop kc hmemkc).2
    have hparse : parse_packet (mkPacket rid mid kc.1 n kc.2)
        = some ⟨rid % 256, mid, kc.1, n, kc.2⟩ :=
      parse_mkPacket_small _ _ _ _ _ hmid (by omega) (by omega)
    -- key-disjointness facts
    have hnd2 : (q.map Prod.fst).Nodup ∧ ((kc :: rest).map Prod.fst).Nodup ∧
        (q.map Prod.fst).Disjoint ((kc :: rest).map Prod.fst) := by
      rw [← List.nodup_append]
      simpa using hnd
    have hknotq : kc.1 ∉ q.map Prod.fst := by
      intro hmem
      exact hnd2.2.2 hmem (by simp)
    -- the stored entry after this packet
    have hstep_entry : entryAfterStore
        (if q.isEmpty then ([] : Buffer) else [(mid, ⟨n, q, t⟩)])
        ⟨rid % 256, mid, kc.1, n, kc.2⟩ t = ⟨n, q ++ [(kc.1, kc.2)], t⟩ := by
      cases q with
      | nil =>
        simp only [List.isEmpty_nil, if_pos]
        unfold entryAfterStore
        simp [dictGet?, dictInsert_nil]
      | cons a as =>
        simp only [List.isEmpty_cons, if_neg, Bool.false_eq_true, not_false_iff]
        unfold entryAfterStore
        rw [dictGet?_singleton]
        simp only [Option.getD_some]
        rw [dictInsert_of_not_mem _ _ _ hknotq]
    -- the buffer after inserting the entry
    have hstep_buf : dictInsert
        (if q.isEmpty then ([] : Buffer) else [(mid, ⟨n, q, t⟩)]) mid
        (⟨n, q ++ [(kc.1, kc.2)], t⟩ : Entry) = [(mid, ⟨n, q ++ [(kc.1, kc.2)], t⟩)] := by
      cases q with
      | nil => simp only [List.isEmpty_nil, if_pos]; exact dictInsert_nil _ _
      | cons a as =>
        simp only [List.isEmpty_cons, if_neg, Bool.false_eq_true, not_false_iff]
        exact dictInsert_singleton_same _ _ _
    have hPP := processPacket_accepted (rid % 256) dOk
      (if q.isEmpty then ([] : Buffer) else [(mid, ⟨n, q, t⟩)])
      (mkPacket rid mid kc.1 n kc.2) t ⟨rid % 256, mid, kc.1, n, kc.2⟩
      hparse (Or.inl rfl)
    rw [hstep_entry, hstep_buf] at hPP
    simp only at hPP
    by_cases hrest : rest = []
    · -- final packet: the table completes, the payload is emitted
      subst hrest
      have hlen1 : q.length + 1 = n := by simpa using hlen
      -- all indices below n are present with the right chunk
      have hS : ∀ i, i < n → dictGet? (q ++ [(kc.1, kc.2)]) i = some (chunkAt P cs i) := by
        intro i hi
        have hndS : ((q ++ [(kc.1, kc.2)]).map Prod.fst).Nodup := by
          simpa using hnd
        have hltS : ∀ k ∈ (q ++ [(kc.1, kc.2)]).map Prod.fst, k < n := by
          intro k hk
          rcases List.mem_map.mp hk with ⟨kv, hkv, hfst⟩
          have : kv ∈ q ++ kc :: [] := by simpa using hkv
          exact hfst ▸ (hprop kv this).1
        have hlenS : ((q ++ [(kc.1, kc.2)]).map Prod.fst).length = n := by
          simp only [List.length_map]
          simpa using hlen
        have hiS := keys_cover _ n hndS hltS hlenS i hi
        rcases List.mem_map.mp hiS with ⟨kv, hkv, hfst⟩
        have hkvmem : kv ∈ q ++ kc :: [] := by simpa using hkv
        have hkv_eq : kv = (i, chunkAt P cs i) := by
          rw [Prod.ext_iff]
          refine ⟨hfst, ?_⟩
          have := (hprop kv hkvmem).2
          rw [this, hfst]
        exact dictGet?_eq_some_of_mem hndS (hkv_eq ▸ hkvmem)
      have hgather : gather (q ++ [(kc.1, kc.2)]) n
          = some (P ++ List.replicate (n * cs - P.length) 0) := by
        rw [gather_eq_join _ (chunkAt P cs) n hS]
        rw [join_chunks cs hcs n P hPle]
      have hlenfact : (q ++ [(kc.1, kc.2)]).length = n := by
        simp only [List.length_append, List.length_cons, List.length_nil]
        omega
      have hrb : reassemble_bytes ⟨n, q ++ [(kc.1, kc.2)], t⟩ = some P := by
        unfold reassemble_bytes
        rw [if_neg (not_not_intro hlenfact)]
        rw [hgather]
        exact congrArg some (rstripZeros_padded P _ hlast)
      have hreass : reassemble_message dOk [(mid, ⟨n, q ++ [(kc.1, kc.2)], t⟩)] mid
          = some P := by
        rw [reassemble_message_get dOk _ mid _ (dictGet?_singleton mid _), hrb]
        simp [hdOk]
      rw [if_pos hlenfact, hreass] at hPP
      simp only [processAll, List.map_cons, List.map_nil]
      rw [hPP]
      simp [processAll, dictErase_singleton]
    · -- intermediate packet: table keeps accumulating
      have hlen2 : q.length + 1 ≠ n := by
        have : rest.length ≥ 1 := by
          cases rest with
          | nil => exact absurd rfl hrest
          | cons a as => simp
        simp only [List.length_append, List.length_cons] at hlen
        omega
      have hnotlen : ¬((q ++ [(kc.1, kc.2)]).length = n) := by
        simp only [List.length_append, List.length_cons, List.length_nil]
        omega
      rw [if_neg hnotlen] at hPP
      have hq2 : q ++ [(kc.1, kc.2)] = q ++ [kc] := by simp
      have hih := ih (q ++ [kc]) (by simpa using hnd)
        (by intro kv hkv; exact hprop kv (by simpa using hkv))
        (by simpa using hlen) hrest
      have hnotempty : ¬((q ++ [kc]).isEmpty = true) := by
        simp [List.isEmpty_iff]
      rw [if_neg hnotempty] at hih
      simp only [processAll, List.map_cons]
      rw [hPP]
      simp only [Option.toList_none, List.nil_append]
      rw [hq2]
      exact hih

lemma create_packets_gen_ok (P : List Nat) (rid mid cs : Nat)
    (pkts : List (List Nat)) (h : create_packets_gen P rid mid cs = .ok pkts) :
    (P.length + cs - 1) / cs ≤ 65535 ∧
    pkts = (List.range ((P.length + cs - 1) / cs)).map
      (fun k => mkPacket rid mid k ((P.length + cs - 1) / cs) (chunkAt P cs k)) := by
  unfold create_packets_gen at h
  by_cases hc : (P.length + cs - 1) / cs > 65535
  · rw [if_pos hc] at h; cases h
  · rw [if_neg hc] at h
    exact ⟨by omega, (Except.ok.inj h).symm⟩

/-- The pair (chunk index, chunk bytes) recovered from a wire packet; junk for
unparseable packets. -/
def packetKey (pkt : List Nat) : Nat × List Nat :=
  match parse_packet pkt with
  | some p => (p.index, p.data)
  | none => (0, [])

/-- Claim C1 (amended): for a nonempty payload whose final byte is nonzero
(true of every serialized text document this system sends), and any chunk
size of at least one byte, fragmenting with create_packets and delivering all
produced packets to the receiver in any order without duplicates makes the
receiver emit exactly the original payload, byte for byte, and leaves its
reassembly table empty. -/
theorem create_reassemble_roundtrip
    (cs rid mid : Nat) (P : List Nat) (dOk : List Nat → Bool) (t : Int)
    (pkts delivered : List (List Nat))
    (hcs : 1 ≤ cs) (hmid : mid < 4294967296)
    (hP : P ≠ []) (hlast : P.getLast? ≠ some 0) (hdOk : dOk P = true)
    (hok : create_packets_gen P rid mid cs = .ok pkts)
    (hperm : delivered.Perm pkts) :
    processAll (rid % 256) dOk [] delivered t = ([], [(mid, P)]) := by
  obtain ⟨hn2, hpk⟩ := create_packets_gen_ok P rid mid cs pkts hok
  have hn1 : 1 ≤ (P.length + cs - 1) / cs :=
    one_le_ceil P.length cs hcs (List.length_pos.mpr hP)
  have hPle : P.length ≤ ((P.length + cs - 1) / cs) * cs := le_ceil_mul P.length cs hcs
  have hpk2 : pkts = ((List.range ((P.length + cs - 1) / cs)).map
      (fun k => (k, chunkAt P cs k))).map
      (fun kc => mkPacket rid mid kc.1 ((P.length + cs - 1) / cs) kc.2) := by
    rw [hpk, List.map_map]
    rfl
  have hback : ∀ kc ∈ (List.range ((P.length + cs - 1) / cs)).map
      (fun k => (k, chunkAt P cs k)),
      (packetKey ∘ fun kc => mkPacket rid mid kc.1 ((P.length + cs - 1) / cs) kc.2) kc
        = id kc := by
    intro kc hkc
    rcases List.mem_map.mp hkc with ⟨k, hk, hkeq⟩
    have hklt : k < (P.length + cs - 1) / cs := List.mem_range.mp hk
    subst hkeq
    simp only [Function.comp_apply, id_eq, packetKey]
    rw [parse_mkPacket_small _ _ _ _ _ hmid (by omega) (by omega)]
  have hpermback := hperm.map packetKey
  have hmapback : pkts.map packetKey
      = (List.range ((P.length + cs - 1) / cs)).map (fun k => (k, chunkAt P cs k)) := by
    conv_lhs => rw [hpk2]
    rw [List.map_map, List.map_congr_left hback, List.map_id]
  rw [hmapback] at hpermback
  have hdel : (delivered.map packetKey).map
      (fun kc => mkPacket rid mid kc.1 ((P.length + cs - 1) / cs) kc.2) = delivered := by
    rw [List.map_map]
    have hcong : ∀ pkt ∈ delivered,
        ((fun kc => mkPacket rid mid kc.1 ((P.length + cs - 1) / cs) kc.2) ∘
          packetKey) pkt = id pkt := by
      intro pkt hpkt
      have hmem : pkt ∈ pkts := hperm.mem_iff.mp hpkt
      rw [hpk2] at hmem
      rcases List.mem_map.mp hmem with ⟨kc, hkc, hkceq⟩
      subst hkceq
      simp only [Function.comp_apply, id_eq]
      have := hback kc hkc
      simp only [Function.comp_apply, id_eq] at this
      rw [this]
    rw [List.map_congr_left hcong, List.map_id]
  have hfst : ((List.range ((P.length + cs - 1) / cs)).map
      (fun k => (k, chunkAt P cs k))).map Prod.fst
      = List.range ((P.length + cs - 1) / cs) := by
    rw [List.map_map]
    exact List.map_id _
  have haux := processAll_perm_aux cs rid mid ((P.length + cs - 1) / cs) P dOk t
    hmid hn2 hcs hPle hlast hdOk (delivered.map packetKey) []
    (by
      simp only [List.nil_append]
      rw [(hpermback.map Prod.fst).nodup_iff]
      rw [hfst]
      exact List.nodup_range _)
    (by
      intro kc hkc
      simp only [List.nil_append] at hkc
      have hkc2 := hpermback.mem_iff.mp hkc
      rcases List.mem_map.mp hkc2 with ⟨k, hk, hkeq⟩
      have hklt : k < (P.length + cs - 1) / cs := List.mem_range.mp hk
      rw [← hkeq]
      exact ⟨hklt, rfl⟩)
    (by
      simp only [List.nil_append, List.length_map]
      rw [hperm.length_eq, hpk]
      simp)
    (by
      intro hnil
      have hzero : delivered.length = 0 := by
        have := congrArg List.length hnil
        simpa using this
      rw [hperm.length_eq, hpk] at hzero
      simp only [List.length_map, List.length_range] at hzero
      omega)
  rw [hdel] at haux
  exact haux

/-- Claim C1, as stated, is false for a payload consisting of a single zero
byte: all produced packets are delivered, yet after the padding trim the
receiver emits the empty byte sequence, not the original payload, because
rstrip cannot distinguish the payload's own trailing zero from padding. -/
theorem claim1_counterexample :
    create_packets [0] 0 0 = .ok [mkPacket 0 0 0 1 (List.replicate 243 0)] ∧
    processAll 0 (fun _ => true) [] [mkPacket 0 0 0 1 (List.replicate 243 0)] 0
      = ([], [(0, [])]) ∧
    ([] : List Nat) ≠ [0] :=
  ⟨rfl, rfl, by decide⟩

theorem claim1_witness :
    processAll 3 (fun _ => true) []
      ((create_packets_gen [1, 2, 3] 3 5 2).toOption.getD []).reverse 0
      = ([], [(5, [1, 2, 3])]) :=
  create_reassemble_roundtrip 2 3 5 [1, 2, 3] (fun _ => true) 0
    ((create_packets_gen [1, 2, 3] 3 5 2).toOption.getD [])
    ((create_packets_gen [1, 2, 3] 3 5 2).toOption.getD []).reverse
    (by decide) (by decide) (by decide) (by decide) rfl rfl (List.reverse_perm _)

lemma send_loop_map_packet (f : Nat → Bool) :
    ∀ (pkts : List (List Nat)) (i : Nat),
      (send_loop f pkts i).map (fun a => a.2.1) = pkts := by
  intro pkts
  induction pkts with
  | nil => intro i; rfl
  | cons pkt rest ih =>
    intro i
    simp only [send_loop, List.map_cons]
    rw [ih (i + 1)]

/-- Claim C4: the send loop never inspects the transceiver's per-packet send
result, so whatever pattern of send failures f describes, every one of the
chunk_count packets of a fragmented message is attempted, in order; a failed
send neither aborts nor truncates the transmission. -/
theorem send_failure_does_not_abort (P : List Nat) (rid mid cs : Nat)
    (pkts : List (List Nat)) (f : Nat → Bool)
    (hok : create_packets_gen P rid mid cs = .ok pkts) :
    (send_loop f pkts 0).map (fun a => a.2.1) = pkts ∧
    (send_loop f pkts 0).length = (P.length + cs - 1) / cs := by
  obtain ⟨_, hpk⟩ := create_packets_gen_ok P rid mid cs pkts hok
  refine ⟨send_loop_map_packet f pkts 0, ?_⟩
  have h := congrArg List.length (send_loop_map_packet f pkts 0)
  rw [List.length_map] at h
  rw [h, hpk]
  simp

theorem claim4_witness :
    (send_loop (fun i => decide (i ≠ 0))
        ((create_packets_gen [1, 2] 0 0 1).toOption.getD []) 0).map (fun a => a.2.1)
      = (create_packets_gen [1, 2] 0 0 1).toOption.getD [] ∧
    (send_loop (fun i => decide (i ≠ 0))
        ((create_packets_gen [1, 2] 0 0 1).toOption.getD []) 0).length = 2 :=
  send_failure_does_not_abort [1, 2] 0 0 1
    ((create_packets_gen [1, 2] 0 0 1).toOption.getD []) (fun i => decide (i ≠ 0)) rfl

/-- Claim C5: when a payload needs more than 65535 chunks at the given chunk
size, create_packets raises the oversize ValueError before building any
packet, and the transmitter performs no send at all. -/
theorem oversize_rejected_before_send (P : List Nat) (rid mid cs : Nat)
    (f : Nat → Bool) (hover : (P.length + cs - 1) / cs > 65535) :
    create_packets_gen P rid mid cs = .error (oversizeMsg ((P.length + cs - 1) / cs)) ∧
    transmit P rid mid cs f = [] := by
  have h1 : create_packets_gen P rid mid cs
      = .error (oversizeMsg ((P.length + cs - 1) / cs)) := by
    unfold create_packets_gen
    rw [if_pos hover]
  refine ⟨h1, ?_⟩
  unfold transmit
  rw [h1]

theorem claim5_witness :
    create_packets_gen (List.replicate 65536 0) 0 0 1
      = .error (oversizeMsg ((((List.replicate 65536 0 : List Nat)).length + 1 - 1) / 1)) ∧
    transmit (List.replicate 65536 0) 0 0 1 (fun _ => true) = [] :=
  oversize_rejected_before_send (List.replicate 65536 0) 0 0 1 (fun _ => true)
    (by rw [List.length_replicate]; norm_num)

/-- Claim C6: a parsed packet whose recipient id is neither this receiver's id
nor the broadcast value 255 is dropped before touching the reassembly table:
the buffer is returned unchanged and nothing is emitted. -/
theorem foreign_packet_leaves_table_unchanged (myId : Nat) (dOk : List Nat → Bool)
    (buf : Buffer) (pkt : List Nat) (t : Int) (p : Parsed)
    (hp : parse_packet pkt = some p)
    (h1 : p.recipient_id ≠ myId) (h2 : p.recipient_id ≠ 255) :
    processPacket myId dOk buf pkt t = (buf, none) :=
  processPacket_foreign myId dOk buf pkt t p hp h1 h2

theorem claim6_witness :
    processPacket 0 (fun _ => true)
      [(4, ⟨2, [(0, [1])], 0⟩)] [9, 0, 0, 0, 0, 0, 0, 1, 0] 0
      = ([(4, ⟨2, [(0, [1])], 0⟩)], none) :=
  foreign_packet_leaves_table_unchanged 0 (fun _ => true)
    [(4, ⟨2, [(0, [1])], 0⟩)] [9, 0, 0, 0, 0, 0, 0, 1, 0] 0
    ⟨9, 0, 0, 1, []⟩ rfl (by decide) (by decide)

/-- Claim C9: every packet of a non-oversize fragmentation is well-formed:
packet k is exactly the 9-byte header (recipient byte, 4-byte LE message id,
2-byte LE index k, 2-byte LE chunk count) followed by a chunk of exactly
chunk_size bytes, so packets appear in strictly increasing index order
0..chunk_count-1, each index is below the chunk count, the count is at most
65535, and all packets of the message share one recipient id and message id. -/
theorem packets_well_formed (P : List Nat) (rid mid cs : Nat)
    (pkts : List (List Nat)) (hmid : mid < 4294967296)
    (hok : create_packets_gen P rid mid cs = .ok pkts) :
    pkts.length = (P.length + cs - 1) / cs ∧
    (P.length + cs - 1) / cs ≤ 65535 ∧
    ∀ k, (hk : k < pkts.length) →
      pkts.get ⟨k, hk⟩ = mkPacket rid mid k ((P.length + cs - 1) / cs) (chunkAt P cs k) ∧
      (pkts.get ⟨k, hk⟩).length = 9 + cs ∧
      (chunkAt P cs k).length = cs ∧
      parse_packet (pkts.get ⟨k, hk⟩)
        = some ⟨rid % 256, mid, k, (P.length + cs - 1) / cs, chunkAt P cs k⟩ ∧
      k < (P.length + cs - 1) / cs := by
  obtain ⟨hn2, hpk⟩ := create_packets_gen_ok P rid mid cs pkts hok
  have hlen : pkts.length = (P.length + cs - 1) / cs := by rw [hpk]; simp
  refine ⟨hlen, hn2, ?_⟩
  intro k hk
  have hklt : k < (P.length + cs - 1) / cs := hlen ▸ hk
  have hget : pkts.get ⟨k, hk⟩
      = mkPacket rid mid k ((P.length + cs - 1) / cs) (chunkAt P cs k) := by
    subst hpk
    simp [List.get_eq_getElem]
  refine ⟨hget, ?_, chunkAt_length P cs k, ?_, hklt⟩
  · rw [hget, mkPacket_length, chunkAt_length]
  · rw [hget]
    exact parse_mkPacket_small _ _ _ _ _ hmid (by omega) (by omega)

theorem claim9_witness :
    ((create_packets_gen [1, 2, 3] 1 2 2).toOption.getD []).length = 2 ∧
    (3 + 2 - 1) / 2 ≤ 65535 := by
  have h := packets_well_formed [1, 2, 3] 1 2 2
    ((create_packets_gen [1, 2, 3] 1 2 2).toOption.getD []) (by decide) rfl
  exact ⟨h.1, h.2.1⟩

/-- Claim C10: for the empty payload the chunk count is zero, create_packets
succeeds with an empty packet list (no single padded packet is produced), and
the transmitter sends nothing. -/
theorem empty_payload_nothing_sent (rid mid cs : Nat) (f : Nat → Bool)
    (hcs : 1 ≤ cs) :
    ((([] : List Nat)).length + cs - 1) / cs = 0 ∧
    create_packets_gen [] rid mid cs = .ok [] ∧
    transmit [] rid mid cs f = [] := by
  have h0 : ((([] : List Nat)).length + cs - 1) / cs = 0 := by
    simp only [List.length_nil, Nat.zero_add]
    exact Nat.div_eq_of_lt (by omega)
  have h1 : create_packets_gen [] rid mid cs = .ok [] := by
    unfold create_packets_gen
    rw [h0]
    have hcond : ¬((0 : Nat) > 65535) := by omega
    rw [if_neg hcond]
    rfl
  refine ⟨h0, h1, ?_⟩
  unfold transmit
  rw [h1]
  rfl

theorem claim10_witness :
    create_packets [] 7 9 = .ok [] ∧ transmit [] 7 9 243 (fun _ => true) = [] := by
  have h := empty_payload_nothing_sent 7 9 243 (fun _ => true) (by decide)
  exact ⟨h.2.1, h.2.2⟩

/-- Claim C3 (amended): when a fully collected message fails to decode, nothing
is emitted, but the reassembly-table entry is NOT removed at that point: it
stays in the table (only the later eviction sweep can remove it), unlike the
success path which deletes the entry immediately. -/
theorem decode_failure_keeps_entry (myId : Nat) (dOk : List Nat → Bool)
    (buf : Buffer) (pkt : List Nat) (t : Int) (p : Parsed) (bs : List Nat)
    (hnd : (buf.map Prod.fst).Nodup)
    (hp : parse_packet pkt = some p)
    (hacc : p.recipient_id = myId ∨ p.recipient_id = 255)
    (hcomp : (entryAfterStore buf p t).chunks.length = p.total_chunks)
    (hbytes : reassemble_bytes (entryAfterStore buf p t) = some bs)
    (hfail : dOk bs = false) :
    processPacket myId dOk buf pkt t
      = (dictInsert buf p.packet_content_id (entryAfterStore buf p t), none) ∧
    dictGet? (dictInsert buf p.packet_content_id (entryAfterStore buf p t))
        p.packet_content_id = some (entryAfterStore buf p t) := by
  have hPP := processPacket_accepted myId dOk buf pkt t p hp hacc
  rw [if_pos hcomp] at hPP
  have hget : dictGet? (dictInsert buf p.packet_content_id (entryAfterStore buf p t))
      p.packet_content_id = some (entryAfterStore buf p t) :=
    dictGet?_insert_self _ _ _ hnd
  have hre : reassemble_message dOk
      (dictInsert buf p.packet_content_id (entryAfterStore buf p t))
      p.packet_content_id = none := by
    rw [reassemble_message_get dOk _ _ _ hget, hbytes]
    simp [hfail]
  rw [hre] at hPP
  exact ⟨hPP, hget⟩

/-- Claim C3, as stated, is false on the code: after a complete message whose
bytes fail to decode, the reassembly-table entry is still present (the source
only deletes the entry on the success path, receiver_lora.py line 153). -/
theorem claim3_counterexample :
    dictGet? (processPacket 0 (fun _ => false) [] [0, 3, 0, 0, 0, 0, 0, 1, 0, 65] 0).1 3
      = some ⟨1, [(0, [65])], 0⟩ ∧
    dictGet? (processPacket 0 (fun _ => false) [] [0, 3, 0, 0, 0, 0, 0, 1, 0, 65] 0).1 3
      ≠ none ∧
    (processPacket 0 (fun _ => false) [] [0, 3, 0, 0, 0, 0, 0, 1, 0, 65] 0).2 = none :=
  ⟨rfl, by decide, rfl⟩

theorem claim3_witness :
    processPacket 0 (fun _ => false) [] [0, 3, 0, 0, 0, 0, 0, 1, 0, 65] 0
      = ([(3, ⟨1, [(0, [65])], 0⟩)], none) ∧
    dictGet? [(3, (⟨1, [(0, [65])], 0⟩ : Entry))] 3 = some ⟨1, [(0, [65])], 0⟩ := by
  have h := decode_failure_keeps_entry 0 (fun _ => false) []
    [0, 3, 0, 0, 0, 0, 0, 1, 0, 65] 0 ⟨0, 3, 0, 1, [65]⟩ [65]
    (by decide) rfl (Or.inl rfl) (by decide) (by decide) rfl
  exact h

/-! ### Stream well-formedness predicates and the reachable-buffer invariant -/

/-- A packet is individually well-formed when its chunk index is below its own
chunk count (the invariant of section 3 of the spec). Unparseable packets are
ignored by the receiver, so they count as harmless. -/
def packetWF (pkt : List Nat) : Bool :=
  match parse_packet pkt with
  | some p => decide (p.index < p.total_chunks)
  | none => true

/-- Two packets are consistent when, if they carry the same message id, they
agree on the chunk count. -/
def consistentPair (pkt pkt2 : List Nat) : Bool :=
  match parse_packet pkt, parse_packet pkt2 with
  | some p, some p2 =>
    p.packet_content_id != p2.packet_content_id || p.total_chunks == p2.total_chunks
  | _, _ => true

lemma keys_dictInsert_subset {α : Type} {m : List (Nat × α)} {k k' : Nat} {v : α}
    (h : k' ∈ (dictInsert m k v).map Prod.fst) : k' ∈ m.map Prod.fst ∨ k' = k := by
  rcases List.mem_map.mp h with ⟨kv, hkv, hfst⟩
  rcases mem_dictInsert hkv with hmem | heq
  · exact Or.inl (hfst ▸ List.mem_map.mpr ⟨kv, hmem, rfl⟩)
  · right; rw [← hfst, heq]

lemma mem_dictErase {α : Type} {m : List (Nat × α)} {k : Nat} {kv : Nat × α}
    (h : kv ∈ dictErase m k) : kv ∈ m :=
  (List.mem_filter.mp h).1

/-- The invariant of every entry reachable from the packet stream L: its chunk
keys are distinct, each stored index was carried by some packet of L for this
message id, and its chunk count was carried by some packet of L for this id. -/
def EntryInv (L : List (List Nat)) (kv : Nat × Entry) : Prop :=
  (kv.2.chunks.map Prod.fst).Nodup ∧
  (∀ k ∈ kv.2.chunks.map Prod.fst, ∃ pkt ∈ L, ∃ p, parse_packet pkt = some p ∧
      p.packet_content_id = kv.1 ∧ p.index = k) ∧
  (∃ pkt ∈ L, ∃ p, parse_packet pkt = some p ∧ p.packet_content_id = kv.1 ∧
      p.total_chunks = kv.2.total_chunks)

def BufInv (L : List (List Nat)) (buf : Buffer) : Prop :=
  ∀ kv ∈ buf, EntryInv L kv

lemma BufInv_processPacket (L : List (List Nat)) (myId : Nat)
    (dOk : List Nat → Bool) (buf : Buffer) (pkt : List Nat) (t : Int)
    (hpkt : pkt ∈ L) (hinv : BufInv L buf) :
    BufInv L (processPacket myId dOk buf pkt t).1 := by
  rcases hparse : parse_packet pkt with _ | p
  · rw [processPacket_not_parsed myId dOk buf pkt t hparse]
    exact hinv
  · by_cases hacc : p.recipient_id = myId ∨ p.recipient_id = 255
    · rw [processPacket_accepted myId dOk buf pkt t p hparse hacc]
      have hentry : EntryInv L (p.packet_content_id, entryAfterStore buf p t) := by
        unfold entryAfterStore
        rcases hget : dictGet? buf p.packet_content_id with _ | e0
        · simp only [hget, Option.getD_none]
          refine ⟨by simp [dictInsert_nil], ?_, ?_⟩
          · intro k hk
            rw [dictInsert_nil] at hk
            simp only [List.map_cons, List.map_nil, List.mem_singleton] at hk
            exact ⟨pkt, hpkt, p, hparse, rfl, hk.symm⟩
          · exact ⟨pkt, hpkt, p, hparse, rfl, rfl⟩
        · have hmem0 : (p.packet_content_id, e0) ∈ buf := dictGet?_mem hget
          obtain ⟨hnd0, hkeys0, htot0⟩ := hinv _ hmem0
          simp only [hget, Option.getD_some]
          refine ⟨dictInsert_keys_nodup _ _ hnd0, ?_, htot0⟩
          intro k hk
          rcases keys_dictInsert_subset hk with hold | hnew
          · exact hkeys0 k hold
          · exact ⟨pkt, hpkt, p, hparse, rfl, hnew.symm⟩
      have hbuf1 : BufInv L (dictInsert buf p.packet_content_id (entryAfterStore buf p t)) := by
        intro kv hkv
        rcases mem_dictInsert hkv with hold | hnew
        · exact hinv kv hold
        · rw [hnew]; exact hentry
      by_cases hcomp : (entryAfterStore buf p t).chunks.length = p.total_chunks
      · rw [if_pos hcomp]
        rcases hre : reassemble_message dOk
            (dictInsert buf p.packet_content_id (entryAfterStore buf p t))
            p.packet_content_id with _ | v
        · exact hbuf1
        · intro kv hkv
          exact hbuf1 kv (mem_dictErase hkv)
      · rw [if_neg hcomp]
        exact hbuf1
    · push_neg at hacc
      rw [processPacket_foreign myId dOk buf pkt t p hparse hacc.1 hacc.2]
      exact hinv

lemma BufInv_processAll (L : List (List Nat)) (myId : Nat)
    (dOk : List Nat → Bool) (t : Int) :
    ∀ (L2 : List (List Nat)) (buf : Buffer), (∀ pkt ∈ L2, pkt ∈ L) →
      BufInv L buf → BufInv L (processAll myId dOk buf L2 t).1 := by
  intro L2
  induction L2 with
  | nil => intro buf _ hinv; exact hinv
  | cons pkt rest ih =>
    intro buf hsub hinv
    simp only [processAll]
    exact ih _ (fun q hq => hsub q (List.mem_cons_of_mem _ hq))
      (BufInv_processPacket L myId dOk buf pkt t (hsub pkt (List.mem_cons_self _ _)) hinv)

/-- Claim C2 (amended): quantified over packet sequences in which every packet
carries chunk_index below its own chunk_count and all packets of one message
agree on chunk_count. In every reachable reassembly entry whose stored-chunk
cardinality equals its chunk_count, every index 0..chunk_count-1 is actually
present, and the in-order concatenation of reassemble_message cannot hit its
missing-index branch (reassemble_bytes succeeds). Without those two
well-formedness conditions the claim is false, see the counterexample. -/
theorem completion_implies_all_indices (myId : Nat) (dOk : List Nat → Bool)
    (L : List (List Nat)) (t : Int)
    (hwf1 : ∀ pkt ∈ L, packetWF pkt = true)
    (hwf2 : ∀ pkt ∈ L, ∀ pkt2 ∈ L, consistentPair pkt pkt2 = true) :
    ∀ kv ∈ (processAll myId dOk [] L t).1,
      kv.2.chunks.length = kv.2.total_chunks →
      (∀ i, i < kv.2.total_chunks → (dictGet? kv.2.chunks i).isSome) ∧
      (reassemble_bytes kv.2).isSome := by
  intro kv hkv hcomp
  have hinv := BufInv_processAll L myId dOk t L [] (fun _ h => h)
    (fun _ h => absurd h (List.not_mem_nil _)) kv hkv
  obtain ⟨hnd, hkeys, pkt0, hpkt0, p0, hp0, hpcid0, htot0⟩ := hinv
  have hbound : ∀ k ∈ kv.2.chunks.map Prod.fst, k < kv.2.total_chunks := by
    intro k hk
    obtain ⟨pkt, hpkt, p, hp, hpcid, hidx⟩ := hkeys k hk
    have h1 := hwf1 pkt hpkt
    unfold packetWF at h1
    rw [hp] at h1
    have hklt : p.index < p.total_chunks := of_decide_eq_true h1
    have h2 := hwf2 pkt hpkt pkt0 hpkt0
    unfold consistentPair at h2
    rw [hp, hp0] at h2
    have hpcid_eq : p.packet_content_id = p0.packet_content_id := by
      rw [hpcid, hpcid0]
    have htot_eq : p.total_chunks = p0.total_chunks := by
      rcases Bool.or_eq_true_iff.mp h2 with hne | heq
      · exact absurd hpcid_eq (bne_iff_ne.mp hne)
      · exact beq_iff_eq.mp heq
    rw [← hidx, ← htot0, ← htot_eq]
    exact hklt
  have hlenkeys : (kv.2.chunks.map Prod.fst).length = kv.2.total_chunks := by
    rw [List.length_map, hcomp]
  have hcover := keys_cover _ _ hnd hbound hlenkeys
  have hall : ∀ i, i < kv.2.total_chunks → (dictGet? kv.2.chunks i).isSome := by
    intro i hi
    exact dictGet?_isSome_of_mem_keys (hcover i hi)
  refine ⟨hall, ?_⟩
  unfold reassemble_bytes
  rw [if_neg (not_not_intro hcomp)]
  rcases Option.isSome_iff_exists.mp
    (gather_isSome_of_all kv.2.chunks kv.2.total_chunks hall) with ⟨full, hfull⟩
  rw [hfull]
  rfl

/-- Claim C2, as stated (quantified over arbitrary packet sequences including
chunk_index not below chunk_count), is false: two packets of message 7 with
indices 5 and 7 and chunk_count 2 make the cardinality completion check pass
while index 0 is absent, so the missing-index branch of reassemble_message is
reached (reassemble_bytes returns None on a complete-by-count entry). -/
theorem claim2_counterexample :
    (processAll 0 (fun _ => true) []
        [[0, 7, 0, 0, 0, 5, 0, 2, 0], [0, 7, 0, 0, 0, 7, 0, 2, 0]] 0).1
      = [(7, ⟨2, [(5, []), (7, [])], 0⟩)] ∧
    (2 : Nat) = (⟨2, [(5, []), (7, [])], 0⟩ : Entry).chunks.length ∧
    (⟨2, [(5, []), (7, [])], 0⟩ : Entry).chunks.length
      = (⟨2, [(5, []), (7, [])], 0⟩ : Entry).total_chunks ∧
    dictGet? (⟨2, [(5, []), (7, [])], 0⟩ : Entry).chunks 0 = none ∧
    reassemble_bytes ⟨2, [(5, []), (7, [])], 0⟩ = none :=
  ⟨rfl, rfl, rfl, rfl, rfl⟩

theorem claim2_witness :
    (dictGet? [(1, ([] : List Nat)), (0, [])] 0).isSome = true ∧
    (reassemble_bytes ⟨2, [(1, []), (0, [])], 0⟩).isSome = true := by
  have h := completion_implies_all_indices 0 (fun _ => false)
    [[0, 7, 0, 0, 0, 1, 0, 2, 0], [0, 7, 0, 0, 0, 0, 0, 2, 0]] 0
    (by decide) (by decide)
    (7, ⟨2, [(1, []), (0, [])], 0⟩) (by decide) rfl
  exact ⟨h.1 0 (by decide), h.2⟩

/-! ### Partial-loss timeout: never emitted, eventually evicted -/

/-- All packets of the stream carrying message id m agree on chunk count n. -/
def totalIsFor (m n : Nat) (pkt : List Nat) : Bool :=
  match parse_packet pkt with
  | some p => p.packet_content_id != m || p.total_chunks == n
  | none => true

/-- No packet of the stream carries fragment i0 of message m. -/
def indexNotFor (m i0 : Nat) (pkt : List Nat) : Bool :=
  match parse_packet pkt with
  | some p => p.packet_content_id != m || p.index != i0
  | none => true

/-- Invariant for a message m of count n missing fragment i0: any reassembly
entry for m expects n chunks and never holds index i0. -/
def MsgInv (m n i0 : Nat) (buf : Buffer) : Prop :=
  ∀ kv ∈ buf, kv.1 = m → kv.2.total_chunks = n ∧ i0 ∉ kv.2.chunks.map Prod.fst

lemma MsgInv_sweep (m n i0 : Nat) (t : Int) (buf : Buffer)
    (hinv : MsgInv m n i0 buf) : MsgInv m n i0 (sweep t buf) := by
  intro kv hkv
  exact hinv kv (List.mem_filter.mp hkv).1

lemma MsgInv_processPacket (m n i0 : Nat) (hi0 : i0 < n) (myId : Nat)
    (dOk : List Nat → Bool) (buf : Buffer) (pkt : List Nat) (t : Int)
    (htot : totalIsFor m n pkt = true) (hidx : indexNotFor m i0 pkt = true)
    (hinv : MsgInv m n i0 buf) :
    MsgInv m n i0 (processPacket myId dOk buf pkt t).1 ∧
    ∀ v, (processPacket myId dOk buf pkt t).2 ≠ some (m, v) := by
  rcases hparse : parse_packet pkt with _ | p
  · rw [processPacket_not_parsed myId dOk buf pkt t hparse]
    exact ⟨hinv, by simp⟩
  · by_cases hacc : p.recipient_id = myId ∨ p.recipient_id = 255
    · rw [processPacket_accepted myId dOk buf pkt t p hparse hacc]
      unfold totalIsFor at htot
      unfold indexNotFor at hidx
      rw [hparse] at htot hidx
      -- the updated entry satisfies the invariant when it concerns m
      have hentry : p.packet_content_id = m →
          (entryAfterStore buf p t).total_chunks = n ∧
          i0 ∉ (entryAfterStore buf p t).chunks.map Prod.fst := by
        intro hpcid
        have htot2 : p.total_chunks = n := by
          rcases Bool.or_eq_true_iff.mp htot with hne | heq
          · exact absurd hpcid (bne_iff_ne.mp hne)
          · exact beq_iff_eq.mp heq
        have hidx2 : p.index ≠ i0 := by
          rcases Bool.or_eq_true_iff.mp hidx with hne | hne2
          · exact absurd hpcid (bne_iff_ne.mp hne)
          · exact bne_iff_ne.mp hne2
        unfold entryAfterStore
        rcases hget : dictGet? buf p.packet_content_id with _ | e0
        · simp only [hget, Option.getD_none]
          refine ⟨htot2, ?_⟩
          intro hmem
          rw [dictInsert_nil] at hmem
          simp only [List.map_cons, List.map_nil, List.mem_singleton] at hmem
          exact hidx2 hmem.symm
        · have hmem0 : (p.packet_content_id, e0) ∈ buf := dictGet?_mem hget
          obtain ⟨htot0, hkey0⟩ := hinv _ hmem0 hpcid
          simp only [hget, Option.getD_some]
          refine ⟨htot0, ?_⟩
          intro hmem
          rcases keys_dictInsert_subset hmem with hold | hnew
          · exact hkey0 hold
          · exact hidx2 hnew.symm
      have hbuf1 : MsgInv m n i0
          (dictInsert buf p.packet_content_id (entryAfterStore buf p t)) := by
        intro kv hkv hkvm
        rcases mem_dictInsert hkv with hold | hnew
        · exact hinv kv hold hkvm
        · rw [hnew]
          rw [hnew] at hkvm
          exact hentry hkvm
      by_cases hcomp : (entryAfterStore buf p t).chunks.length = p.total_chunks
      · rw [if_pos hcomp]
        rcases hre : reassemble_message dOk
            (dictInsert buf p.packet_content_id (entryAfterStore buf p t))
            p.packet_content_id with _ | v
        · exact ⟨hbuf1, by simp⟩
        · -- a successful reassembly of message m is impossible: fragment i0
          -- would have to be present
          by_cases hpcid : p.packet_content_id = m
          · exfalso
            rcases hget1 : dictGet?
                (dictInsert buf p.packet_content_id (entryAfterStore buf p t))
                p.packet_content_id with _ | info
            · have hnone : reassemble_message dOk
                  (dictInsert buf p.packet_content_id (entryAfterStore buf p t))
                  p.packet_content_id = none := by
                unfold reassemble_message
                rw [hget1]
              rw [hnone] at hre
              cases hre
            · rw [reassemble_message_get dOk _ _ _ hget1] at hre
              have hmeminfo : (p.packet_content_id, info)
                  ∈ dictInsert buf p.packet_content_id (entryAfterStore buf p t) :=
                dictGet?_mem hget1
              obtain ⟨htotI, hkeyI⟩ := hbuf1 _ hmeminfo hpcid
              rcases hrb : reassemble_bytes info with _ | trimmed
              · rw [hrb] at hre; cases hre
              · unfold reassemble_bytes at hrb
                by_cases hlenI : info.chunks.length ≠ info.total_chunks
                · rw [if_pos hlenI] at hrb; cases hrb
                · rw [if_neg hlenI] at hrb
                  rcases hg : gather info.chunks info.total_chunks with _ | full
                  · rw [hg] at hrb; cases hrb
                  · have hsome := gather_some_get info.chunks info.total_chunks
                      full hg i0 (htotI ▸ hi0)
                    exact hkeyI (mem_keys_of_dictGet?_isSome hsome)
          · refine ⟨?_, ?_⟩
            · intro kv hkv hkvm
              exact hbuf1 kv (mem_dictErase hkv) hkvm
            · intro v2 hv2
              simp only [Option.some.injEq, Prod.mk.injEq] at hv2
              exact hpcid hv2.1
      · rw [if_neg hcomp]
        exact ⟨hbuf1, by simp⟩
    · push_neg at hacc
      rw [processPacket_foreign myId dOk buf pkt t p hparse hacc.1 hacc.2]
      exact ⟨hinv, by simp⟩

lemma MsgInv_runLoop (m n i0 : Nat) (hi0 : i0 < n) (myId : Nat)
    (dOk : List Nat → Bool) :
    ∀ (inputs : List (Option (List Nat) × Int)) (buf : Buffer),
      (∀ inp ∈ inputs, ∀ pkt, inp.1 = some pkt →
        totalIsFor m n pkt = true ∧ indexNotFor m i0 pkt = true) →
      MsgInv m n i0 buf →
      MsgInv m n i0 (runLoop myId dOk buf inputs).1 ∧
      m ∉ (runLoop myId dOk buf inputs).2.map Prod.fst := by
  intro inputs
  induction inputs with
  | nil => intro buf _ hinv; exact ⟨hinv, by simp [runLoop]⟩
  | cons inp rest ih =>
    intro buf hstream hinv
    have hiter : MsgInv m n i0 (loopIter myId dOk buf inp).1 ∧
        ∀ v, (loopIter myId dOk buf inp).2 ≠ some (m, v) := by
      unfold loopIter
      rcases hop : inp.1 with _ | pkt
      · exact ⟨MsgInv_sweep m n i0 inp.2 buf hinv, by simp⟩
      · obtain ⟨hw1, hw2⟩ := hstream inp (List.mem_cons_self _ _) pkt hop
        obtain ⟨hp1, hp2⟩ := MsgInv_processPacket m n i0 hi0 myId dOk buf pkt inp.2
          hw1 hw2 hinv
        exact ⟨MsgInv_sweep m n i0 inp.2 _ hp1, hp2⟩
    have hrest := ih (loopIter myId dOk buf inp).1
      (fun q hq => hstream q (List.mem_cons_of_mem _ hq)) hiter.1
    simp only [runLoop]
    refine ⟨hrest.1, ?_⟩
    intro hmem
    rw [List.map_append, List.mem_append] at hmem
    rcases hmem with h1 | h2
    · rcases hout : (loopIter myId dOk buf inp).2 with _ | v
      · rw [hout] at h1; simp at h1
      · rw [hout] at h1
        simp only [Option.toList_some, List.map_cons, List.map_nil,
          List.mem_singleton] at h1
        exact hiter.2 v.2 (by rw [hout, h1])
    · exact hrest.2 h2

lemma sweep_age (t : Int) (buf : Buffer) :
    ∀ kv ∈ sweep t buf, t - kv.2.timestamp ≤ 60 := by
  intro kv hkv
  have h := (List.mem_filter.mp hkv).2
  simp only [Bool.not_eq_eq_eq_not, Bool.not_true, decide_eq_false_iff_not,
    not_lt] at h
  omega

lemma loopIter_age (myId : Nat) (dOk : List Nat → Bool) (buf : Buffer)
    (inp : Option (List Nat) × Int) :
    ∀ kv ∈ (loopIter myId dOk buf inp).1, inp.2 - kv.2.timestamp ≤ 60 := by
  unfold loopIter
  rcases hop : inp.1 with _ | pkt
  · exact sweep_age inp.2 buf
  · exact sweep_age inp.2 _

/-- Claim C7: if no packet of the run carries fragment i0 < n of message m
(while all of m's packets announce chunk count n), then no iteration of the
receive loop ever emits message m to the dispatcher; moreover, after every
single loop iteration (with or without a packet arrival, since the sweep runs
unconditionally), no table entry older than the 60-second timeout survives, so
m's entry is removed by the sweep of the first iteration whose time exceeds
its creation time by more than 60. -/
theorem partial_loss_never_emitted_and_evicted (myId : Nat)
    (dOk : List Nat → Bool) (inputs : List (Option (List Nat) × Int))
    (m n i0 : Nat) (hi0 : i0 < n)
    (hcons : ∀ inp ∈ inputs, ∀ pkt, inp.1 = some pkt → totalIsFor m n pkt = true)
    (hmiss : ∀ inp ∈ inputs, ∀ pkt, inp.1 = some pkt → indexNotFor m i0 pkt = true) :
    m ∉ (runLoop myId dOk [] inputs).2.map Prod.fst ∧
    ∀ (buf : Buffer) (inp : Option (List Nat) × Int),
      ∀ kv ∈ (loopIter myId dOk buf inp).1, inp.2 - kv.2.timestamp ≤ 60 := by
  constructor
  · exact (MsgInv_runLoop m n i0 hi0 myId dOk inputs []
      (fun inp hinp pkt hop => ⟨hcons inp hinp pkt hop, hmiss inp hinp pkt hop⟩)
      (fun kv hkv => absurd hkv (List.not_mem_nil kv))).2
  · intro buf inp
    exact loopIter_age myId dOk buf inp

theorem claim7_witness :
    5 ∉ ((runLoop 0 (fun _ => true) []
        [(some [0, 5, 0, 0, 0, 0, 0, 2, 0], 0), (none, 100)]).2.map Prod.fst) ∧
    (100 : Int) - (40 : Int) ≤ 60 := by
  have h := partial_loss_never_emitted_and_evicted 0 (fun _ => true)
    [(some [0, 5, 0, 0, 0, 0, 0, 2, 0], 0), (none, 100)] 5 2 1
    (by decide) (by decide) (by decide)
  exact ⟨h.1, h.2 [(1, ⟨1, [], 40⟩)] (none, 100) (1, ⟨1, [], 40⟩) (by decide)⟩

/-- Claim C8: for a 500-byte ASCII payload at chunk size 243, create_packets
yields chunk_count = 3 packets whose chunks are 243, 243 and 14 true bytes,
the last zero-padded to 243; delivering the three packets in reverse index
order completes the message, and the padding trim reproduces exactly the
original 500 bytes. -/
theorem concrete_500_byte_scenario :
    create_packets (List.replicate 500 65) 0 0 =
      .ok [mkPacket 0 0 0 3 (List.replicate 243 65),
           mkPacket 0 0 1 3 (List.replicate 243 65),
           mkPacket 0 0 2 3 (List.replicate 14 65 ++ List.replicate 229 0)] ∧
    (List.replicate 243 65 : List Nat).length = 243 ∧
    ((List.replicate 14 65 ++ List.replicate 229 0 : List Nat)).length = 243 ∧
    processAll 0 (fun _ => true) []
      [mkPacket 0 0 2 3 (List.replicate 14 65 ++ List.replicate 229 0),
       mkPacket 0 0 1 3 (List.replicate 243 65),
       mkPacket 0 0 0 3 (List.replicate 243 65)] 0
      = ([], [(0, List.replicate 500 65)]) :=
  ⟨rfl, rfl, rfl, rfl⟩

end Raspi
